import Mathlib

/-!
Verification of the option-pricing core of `src/options.py`: the Black-Scholes
analytical pricer (`BlackScholesModel.european_call_price` /
`european_put_price`) and the geometric-Brownian-motion Monte Carlo path
generator (`monte_carlo_simulation`), shallowly embedded over real arithmetic.

Python floats are modelled by `ℝ`; the float value NaN is modelled as `none`
in an `Option ℝ` payload; a raised Python exception is modelled by the
`Except.error` branch of an `Except PyError _` result.
-/

open MeasureTheory ProbabilityTheory Set

/-- Exceptions that the embedded Python code can raise, together with
`invalidArgument`: the explicit argument-validation error that the
specification's error-handling policy prescribes.  The source code performs no
argument validation, so no code path of the embedding ever produces
`invalidArgument`; the other three arise from the semantics of the arithmetic
and numpy array operations in the source. -/
inductive PyError where
  | zeroDivisionError
  | valueError
  | indexError
  | invalidArgument
  deriving DecidableEq

/-- The standard normal cumulative distribution function, the meaning of
`stats.norm.cdf` in the source: the integral of the standard normal density
(`gaussianPDFReal 0 1`, i.e. `(√(2π))⁻¹ · exp (-t² / 2)`) over `(-∞, x]`. -/
noncomputable def normCdf (x : ℝ) : ℝ := ∫ t in Iic x, gaussianPDFReal 0 1 t

/-- The model parameters stored by `BlackScholesModel.__init__`. -/
structure BlackScholesModel where
  S0 : ℝ
  r : ℝ
  sigma : ℝ
  T : ℝ

namespace BlackScholesModel

/-- `d1 = (np.log(self.S0/K) + (self.r + 0.5*self.sigma**2)*self.T) /
(self.sigma*np.sqrt(self.T))`, as computed by both pricing methods. -/
noncomputable def d1 (m : BlackScholesModel) (K : ℝ) : ℝ :=
  (Real.log (m.S0/K) + (m.r + 0.5*m.sigma^2)*m.T) / (m.sigma*Real.sqrt m.T)

/-- `d2 = d1 - self.sigma*np.sqrt(self.T)`. -/
noncomputable def d2 (m : BlackScholesModel) (K : ℝ) : ℝ :=
  m.d1 K - m.sigma*Real.sqrt m.T

/-- The real number computed by the body of `european_call_price` when no
exception and no NaN arises:
`self.S0*stats.norm.cdf(d1) - K*np.exp(-self.r*self.T)*stats.norm.cdf(d2)`. -/
noncomputable def callPriceReal (m : BlackScholesModel) (K : ℝ) : ℝ :=
  m.S0*normCdf (m.d1 K) - K*Real.exp (-m.r*m.T)*normCdf (m.d2 K)

/-- The real number computed by the body of `european_put_price`:
`K*np.exp(-self.r*self.T)*stats.norm.cdf(-d2) - self.S0*stats.norm.cdf(-d1)`. -/
noncomputable def putPriceReal (m : BlackScholesModel) (K : ℝ) : ℝ :=
  K*Real.exp (-m.r*m.T)*normCdf (-(m.d2 K)) - m.S0*normCdf (-(m.d1 K))

/-- Embedding of `BlackScholesModel.european_call_price` with Python's actual
evaluation behaviour (for a model satisfying the data-model invariant
`S0 > 0`, `sigma > 0`, `T > 0`): the Python-float division `self.S0/K` raises
`ZeroDivisionError` when `K = 0`; when `S0/K < 0`, `np.log` returns NaN
(modelled as `none`), which propagates through every subsequent arithmetic
operation and through `stats.norm.cdf` to the returned value; otherwise the
method returns the Black-Scholes formula value `callPriceReal`.  There is no
argument validation in the source. -/
noncomputable def european_call_price (m : BlackScholesModel) (K : ℝ) :
    Except PyError (Option ℝ) :=
  if K = 0 then .error .zeroDivisionError
  else if m.S0 / K < 0 then .ok none
  else .ok (some (m.callPriceReal K))

/-- Embedding of `BlackScholesModel.european_put_price`; the evaluation
behaviour (`ZeroDivisionError` at `K = 0`, NaN for a negative `log` argument)
is identical to `european_call_price` since both methods compute `d1` the same
way. -/
noncomputable def european_put_price (m : BlackScholesModel) (K : ℝ) :
    Except PyError (Option ℝ) :=
  if K = 0 then .error .zeroDivisionError
  else if m.S0 / K < 0 then .ok none
  else .ok (some (m.putPriceReal K))

end BlackScholesModel

/-- One execution of the loop body of `monte_carlo_simulation` for one path:
`paths[:, i] = paths[:, i-1] * np.exp((r - 0.5*sigma**2)*dt + sigma*np.sqrt(dt)*z)`. -/
noncomputable def gbmStep (r sigma dt z prev : ℝ) : ℝ :=
  prev * Real.exp ((r - 0.5*sigma^2)*dt + sigma*Real.sqrt dt*z)

/-- The price of one simulated path after `i` loop iterations; `z j` is the
standard-normal draw consumed by this path at loop iteration `j`
(`j = 1, ..., n_steps`; index `0` is never consumed, since the loop starts at
`i = 1`). -/
noncomputable def pathPrice (S0 r sigma dt : ℝ) (z : ℕ → ℝ) : ℕ → ℝ
  | 0 => S0
  | i + 1 => gbmStep r sigma dt (z (i + 1)) (pathPrice S0 r sigma dt z i)

/-- Embedding of `monte_carlo_simulation`.  The path/step counts are integers
(Python `int`); `z i p` is the standard-normal draw produced for path `p` by
the `np.random.standard_normal(n_paths)` call of loop iteration `i`, so each
draw is indexed by — and used for — exactly one `(path, step)` pair.

Behaviour of the source, line by line:
* `dt = T / n_steps` raises `ZeroDivisionError` when `n_steps = 0`;
* `np.zeros((n_paths, n_steps + 1))` raises `ValueError` when either
  dimension is negative;
* `paths[:, 0] = S0` raises `IndexError` when the column count
  `n_steps + 1` is zero;
* otherwise (`n_steps ≥ 1` and `n_paths ≥ 0`) the loop fills row `p`,
  column `i` with the value `pathPrice S0 r sigma dt (fun j => z j p) i`,
  and the array is returned as a list of `n_paths` rows of length
  `n_steps + 1`.  There is no argument validation in the source. -/
noncomputable def monte_carlo_simulation (S0 r sigma T : ℝ) (n_paths n_steps : ℤ)
    (z : ℕ → ℕ → ℝ) : Except PyError (List (List ℝ)) :=
  if n_steps = 0 then .error .zeroDivisionError
  else if n_paths < 0 ∨ n_steps + 1 < 0 then .error .valueError
  else if n_steps + 1 = 0 then .error .indexError
  else .ok ((List.range n_paths.toNat).map fun p =>
    (List.range (n_steps.toNat + 1)).map fun i =>
      pathPrice S0 r sigma (T / (n_steps : ℝ)) (fun j => z j p) i)

/-- The entry of a path ensemble at row (path) `p` and column (step) `i`,
with default `0` outside the array bounds. -/
def mcEntry (rows : List (List ℝ)) (p i : ℕ) : ℝ :=
  (rows.getD p ([] : List ℝ)).getD i 0

/-- On valid counts (`n_paths ≥ 0`, `n_steps ≥ 1`) the simulation succeeds and
returns the matrix of per-path prices. -/
theorem monte_carlo_simulation_ok (S0 r sigma T : ℝ) {n_paths n_steps : ℤ}
    (hp : 0 ≤ n_paths) (hs : 1 ≤ n_steps) (z : ℕ → ℕ → ℝ) :
    monte_carlo_simulation S0 r sigma T n_paths n_steps z =
      .ok ((List.range n_paths.toNat).map fun p =>
        (List.range (n_steps.toNat + 1)).map fun i =>
          pathPrice S0 r sigma (T / (n_steps : ℝ)) (fun j => z j p) i) := by
  unfold monte_carlo_simulation
  rw [if_neg (by omega), if_neg (by omega), if_neg (by omega)]

/-- Entry `(p, i)` of the success matrix is the corresponding path price. -/
theorem mcEntry_matrix (S0 r sigma T : ℝ) (n_paths n_steps : ℤ) (z : ℕ → ℕ → ℝ)
    (p i : ℕ) (hp : p < n_paths.toNat) (hi : i < n_steps.toNat + 1) :
    mcEntry ((List.range n_paths.toNat).map fun q =>
        (List.range (n_steps.toNat + 1)).map fun j =>
          pathPrice S0 r sigma (T / (n_steps : ℝ)) (fun k => z k q) j) p i =
      pathPrice S0 r sigma (T / (n_steps : ℝ)) (fun k => z k p) i := by
  unfold mcEntry
  simp [List.getD_eq_getElem?_getD, List.getElem?_map, List.getElem?_range hp,
    List.getElem?_range hi]

/-- Every path price is strictly positive when the initial price is: each step
multiplies the previous price by an exponential of a real number. -/
theorem pathPrice_pos (S0 r sigma dt : ℝ) (z : ℕ → ℝ) (hS0 : 0 < S0) :
    ∀ i, 0 < pathPrice S0 r sigma dt z i := by
  intro i
  induction i with
  | zero => exact hS0
  | succ j ih => exact mul_pos ih (Real.exp_pos _)

/-- With zero volatility each step multiplies by `exp (r*dt)`, independently of
the draws, so the path is the deterministic drift path. -/
theorem pathPrice_sigma_zero (S0 r dt : ℝ) (z : ℕ → ℝ) :
    ∀ i, pathPrice S0 r 0 dt z i = S0 * Real.exp (r * i * dt) := by
  intro i
  induction i with
  | zero => simp [pathPrice]
  | succ j ih =>
    have harg : (r - 0.5*(0:ℝ)^2)*dt + 0*Real.sqrt dt*z (j+1) = r*dt := by ring
    have hcast : r * (j:ℝ) * dt + r * dt = r * ((j:ℕ)+1 : ℕ) * dt := by
      push_cast; ring
    simp only [pathPrice, gbmStep, harg, ih]
    rw [mul_assoc, ← Real.exp_add, hcast]

/-- C4: for valid inputs the simulation succeeds, and with `dt = T / n_steps`
the entry of path `p` at step `i` (`1 ≤ i ≤ n_steps`) equals the entry at step
`i - 1` times `exp ((r - 0.5*sigma^2)*dt + sigma*sqrt(dt)*z)`, where the draw
`z i p` is indexed by — hence freshly sampled for — exactly the one pair
`(p, i)`. -/
theorem mc_recurrence (S0 r sigma T : ℝ) (n_paths n_steps : ℤ)
    (hp : 1 ≤ n_paths) (hs : 1 ≤ n_steps) (z : ℕ → ℕ → ℝ) :
    ∃ rows, monte_carlo_simulation S0 r sigma T n_paths n_steps z = .ok rows ∧
      ∀ p < n_paths.toNat, ∀ i, 1 ≤ i → i ≤ n_steps.toNat →
        mcEntry rows p i = mcEntry rows p (i - 1) *
          Real.exp ((r - 0.5*sigma^2)*(T/(n_steps:ℝ)) +
            sigma*Real.sqrt (T/(n_steps:ℝ))*z i p) := by
  refine ⟨_, monte_carlo_simulation_ok S0 r sigma T (by omega) hs z, ?_⟩
  intro p hpp i hi1 hi2
  obtain ⟨j, rfl⟩ : ∃ j, i = j + 1 := ⟨i - 1, by omega⟩
  simp only [Nat.add_sub_cancel]
  rw [mcEntry_matrix S0 r sigma T n_paths n_steps z p (j+1) hpp (by omega),
      mcEntry_matrix S0 r sigma T n_paths n_steps z p j hpp (by omega)]
  rfl

/-- C4 witness: the recurrence theorem applied at a concrete valid input. -/
theorem mc_recurrence_witness :
    ∃ rows, monte_carlo_simulation 100 0.05 0.2 1 2 2 (fun _ _ => 1) = .ok rows ∧
      ∀ p < (2:ℤ).toNat, ∀ i, 1 ≤ i → i ≤ (2:ℤ).toNat →
        mcEntry rows p i = mcEntry rows p (i - 1) *
          Real.exp ((0.05 - 0.5*(0.2:ℝ)^2)*(1/((2:ℤ):ℝ)) +
            0.2*Real.sqrt (1/((2:ℤ):ℝ))*1) :=
  mc_recurrence 100 0.05 0.2 1 2 2 (by norm_num) (by norm_num) (fun _ _ => 1)

/-- C6: for a positive initial price and valid parameters every entry of the
returned ensemble is strictly positive. -/
theorem mc_entries_pos (S0 r sigma T : ℝ) (n_paths n_steps : ℤ) (z : ℕ → ℕ → ℝ)
    (hS0 : 0 < S0) (hsig : 0 < sigma) (hT : 0 < T)
    (hp : 1 ≤ n_paths) (hs : 1 ≤ n_steps) :
    ∃ rows, monte_carlo_simulation S0 r sigma T n_paths n_steps z = .ok rows ∧
      ∀ p < n_paths.toNat, ∀ i < n_steps.toNat + 1, 0 < mcEntry rows p i := by
  refine ⟨_, monte_carlo_simulation_ok S0 r sigma T (by omega) hs z, ?_⟩
  intro p hpp i hi
  rw [mcEntry_matrix S0 r sigma T n_paths n_steps z p i hpp hi]
  exact pathPrice_pos _ _ _ _ _ hS0 i

/-- C6 witness: strict positivity at a concrete valid input. -/
theorem mc_entries_pos_witness :
    ∃ rows, monte_carlo_simulation 100 0.05 0.2 1 2 2 (fun _ _ => 0) = .ok rows ∧
      ∀ p < (2:ℤ).toNat, ∀ i < (2:ℤ).toNat + 1, 0 < mcEntry rows p i :=
  mc_entries_pos 100 0.05 0.2 1 2 2 (fun _ _ => 0)
    (by norm_num) (by norm_num) (by norm_num) (by norm_num) (by norm_num)

/-- C7: for valid counts the returned ensemble has exactly `n_paths` rows,
each of length `n_steps + 1`. -/
theorem mc_shape (S0 r sigma T : ℝ) (n_paths n_steps : ℤ) (z : ℕ → ℕ → ℝ)
    (hp : 1 ≤ n_paths) (hs : 1 ≤ n_steps) :
    ∃ rows, monte_carlo_simulation S0 r sigma T n_paths n_steps z = .ok rows ∧
      rows.length = n_paths.toNat ∧ ∀ row ∈ rows, row.length = n_steps.toNat + 1 := by
  refine ⟨_, monte_carlo_simulation_ok S0 r sigma T (by omega) hs z, by simp, ?_⟩
  intro row hrow
  simp only [List.mem_map] at hrow
  obtain ⟨q, -, rfl⟩ := hrow
  simp

/-- C7 witness: the shape theorem applied at a concrete valid input. -/
theorem mc_shape_witness :
    ∃ rows, monte_carlo_simulation 100 0.05 0.2 1 3 2 (fun _ _ => 0) = .ok rows ∧
      rows.length = (3:ℤ).toNat ∧ ∀ row ∈ rows, row.length = (2:ℤ).toNat + 1 :=
  mc_shape 100 0.05 0.2 1 3 2 (fun _ _ => 0) (by norm_num) (by norm_num)

/-- C8: for valid counts every path starts exactly at `S0`: column `0` of the
ensemble is `S0` in every row, with no draw consumed at step `0`. -/
theorem mc_initial_column (S0 r sigma T : ℝ) (n_paths n_steps : ℤ) (z : ℕ → ℕ → ℝ)
    (hp : 1 ≤ n_paths) (hs : 1 ≤ n_steps) :
    ∃ rows, monte_carlo_simulation S0 r sigma T n_paths n_steps z = .ok rows ∧
      ∀ p < n_paths.toNat, mcEntry rows p 0 = S0 := by
  refine ⟨_, monte_carlo_simulation_ok S0 r sigma T (by omega) hs z, ?_⟩
  intro p hpp
  rw [mcEntry_matrix S0 r sigma T n_paths n_steps z p 0 hpp (by omega)]
  rfl

/-- C8 witness: the initial-column theorem applied at a concrete valid input. -/
theorem mc_initial_column_witness :
    ∃ rows, monte_carlo_simulation 100 0.05 0.2 1 2 3 (fun _ _ => 0) = .ok rows ∧
      ∀ p < (2:ℤ).toNat, mcEntry rows p 0 = 100 :=
  mc_initial_column 100 0.05 0.2 1 2 3 (fun _ _ => 0) (by norm_num) (by norm_num)

/-- C9: with `sigma = 0` the simulation still succeeds, any two draw sequences
give identical output, and every entry at step `i` is the deterministic drift
value `S0 * exp (r * i * dt)` with `dt = T / n_steps`. -/
theorem mc_sigma_zero (S0 r T : ℝ) (n_paths n_steps : ℤ)
    (hS0 : 0 < S0) (hT : 0 < T) (hp : 1 ≤ n_paths) (hs : 1 ≤ n_steps)
    (z w : ℕ → ℕ → ℝ) :
    monte_carlo_simulation S0 r 0 T n_paths n_steps z =
      monte_carlo_simulation S0 r 0 T n_paths n_steps w ∧
    ∃ rows, monte_carlo_simulation S0 r 0 T n_paths n_steps z = .ok rows ∧
      ∀ p < n_paths.toNat, ∀ i < n_steps.toNat + 1,
        mcEntry rows p i = S0 * Real.exp (r * i * (T/(n_steps:ℝ))) := by
  constructor
  · simp only [monte_carlo_simulation_ok S0 r 0 T (by omega : (0:ℤ) ≤ n_paths) hs z,
      monte_carlo_simulation_ok S0 r 0 T (by omega : (0:ℤ) ≤ n_paths) hs w,
      pathPrice_sigma_zero]
  · refine ⟨_, monte_carlo_simulation_ok S0 r 0 T (by omega) hs z, ?_⟩
    intro p hpp i hi
    rw [mcEntry_matrix S0 r 0 T n_paths n_steps z p i hpp hi]
    exact pathPrice_sigma_zero _ _ _ _ i

/-- C9 witness: the zero-volatility theorem applied at a concrete valid input
and two distinct draw sequences. -/
theorem mc_sigma_zero_witness :
    monte_carlo_simulation 100 0.05 0 1 2 2 (fun _ _ => 1) =
      monte_carlo_simulation 100 0.05 0 1 2 2 (fun _ _ => -7) ∧
    ∃ rows, monte_carlo_simulation 100 0.05 0 1 2 2 (fun _ _ => 1) = .ok rows ∧
      ∀ p < (2:ℤ).toNat, ∀ i < (2:ℤ).toNat + 1,
        mcEntry rows p i = 100 * Real.exp (0.05 * i * (1/((2:ℤ):ℝ))) :=
  mc_sigma_zero 100 0.05 1 2 2 (by norm_num) (by norm_num) (by norm_num)
    (by norm_num) (fun _ _ => 1) (fun _ _ => -7)

/-- C10: with `n_paths = 0` and `n_steps ≥ 1` the call raises nothing and
returns the empty ensemble (zero rows — a complete, vacuously valid output). -/
theorem mc_zero_paths (S0 r sigma T : ℝ) (n_steps : ℤ) (hs : 1 ≤ n_steps)
    (z : ℕ → ℕ → ℝ) :
    monte_carlo_simulation S0 r sigma T 0 n_steps z = .ok ([] : List (List ℝ)) := by
  rw [monte_carlo_simulation_ok S0 r sigma T le_rfl hs z]
  rfl

/-- C10 witness: the zero-paths theorem applied at a concrete input. -/
theorem mc_zero_paths_witness :
    monte_carlo_simulation 100 0.05 0.2 1 0 252 (fun _ _ => 0) =
      .ok ([] : List (List ℝ)) :=
  mc_zero_paths 100 0.05 0.2 1 252 (by norm_num) (fun _ _ => 0)

/-- C3 (amended): when both `n_paths < 1` and `n_steps < 1` the call always
fails, but with an error produced incidentally by the arithmetic and array
operations — `ZeroDivisionError` when `n_steps = 0`, `ValueError` when an
array dimension is negative, `IndexError` when `n_steps = -1` — never with the
invalid-argument validation error the specification prescribes (the source
performs no argument validation). -/
theorem mc_invalid_args_raise (S0 r sigma T : ℝ) (n_paths n_steps : ℤ)
    (hp : n_paths < 1) (hs : n_steps < 1) (z : ℕ → ℕ → ℝ) :
    ∃ e, monte_carlo_simulation S0 r sigma T n_paths n_steps z = .error e ∧
      e ≠ PyError.invalidArgument := by
  unfold monte_carlo_simulation
  by_cases h0 : n_steps = 0
  · rw [if_pos h0]
    exact ⟨_, rfl, by decide⟩
  by_cases h1 : n_paths < 0 ∨ n_steps + 1 < 0
  · rw [if_neg h0, if_pos h1]
    exact ⟨_, rfl, by decide⟩
  · rw [if_neg h0, if_neg h1, if_pos (by omega)]
    exact ⟨_, rfl, by decide⟩

/-- C3 witness: the amended theorem applied at a concrete invalid input. -/
theorem mc_invalid_args_raise_witness :
    ∃ e, monte_carlo_simulation 100 0.05 0.2 1 (-3) (-2) (fun _ _ => 0) = .error e ∧
      e ≠ PyError.invalidArgument :=
  mc_invalid_args_raise 100 0.05 0.2 1 (-3) (-2) (by norm_num) (by norm_num)
    (fun _ _ => 0)

/-- C3 counterexample: at `n_paths = 0`, `n_steps = 0` the call raises
`ZeroDivisionError` (from `dt = T / n_steps`), which is not the
invalid-argument error the claim states. -/
theorem mc_reject_counterexample :
    monte_carlo_simulation 100 0.05 0.2 1 0 0 (fun _ _ => 0) =
      .error PyError.zeroDivisionError ∧
    (Except.error PyError.zeroDivisionError : Except PyError (List (List ℝ))) ≠
      Except.error PyError.invalidArgument := by
  constructor
  · unfold monte_carlo_simulation
    rw [if_pos rfl]
  · intro h
    exact absurd (Except.error.inj h) (by decide)

/-- For a positive strike and positive initial price neither pricer raises and
neither produces NaN: each returns its Black-Scholes formula value. -/
theorem pricers_ok_of_pos_strike (m : BlackScholesModel) {K : ℝ}
    (hS0 : 0 < m.S0) (hK : 0 < K) :
    m.european_call_price K = .ok (some (m.callPriceReal K)) ∧
    m.european_put_price K = .ok (some (m.putPriceReal K)) := by
  have h0 : ¬(K = 0) := ne_of_gt hK
  have h1 : ¬(m.S0 / K < 0) := not_lt.mpr (div_nonneg hS0.le hK.le)
  constructor
  · unfold BlackScholesModel.european_call_price
    rw [if_neg h0, if_neg h1]
  · unfold BlackScholesModel.european_put_price
    rw [if_neg h0, if_neg h1]

/-- C2 (amended): for `K = 0` both pricers raise — but `ZeroDivisionError`,
coming from the division `self.S0/K`, not an invalid-argument validation
error; and for `K < 0` (with `S0 > 0`) neither raises: `np.log(S0/K)` is NaN
and both return the NaN float instead of rejecting. -/
theorem pricers_degenerate_strike (m : BlackScholesModel) (hS0 : 0 < m.S0) :
    (m.european_call_price 0 = .error PyError.zeroDivisionError ∧
     m.european_put_price 0 = .error PyError.zeroDivisionError) ∧
    ∀ K < (0:ℝ), m.european_call_price K = .ok none ∧
      m.european_put_price K = .ok none := by
  refine ⟨⟨?_, ?_⟩, ?_⟩
  · unfold BlackScholesModel.european_call_price
    rw [if_pos rfl]
  · unfold BlackScholesModel.european_put_price
    rw [if_pos rfl]
  · intro K hK
    have h0 : ¬(K = 0) := ne_of_lt hK
    have h1 : m.S0 / K < 0 := div_neg_of_pos_of_neg hS0 hK
    constructor
    · unfold BlackScholesModel.european_call_price
      rw [if_neg h0, if_pos h1]
    · unfold BlackScholesModel.european_put_price
      rw [if_neg h0, if_pos h1]

/-- C2 witness: the amended theorem applied to a concrete model and to the
concrete negative strike `K = -1`. -/
theorem pricers_degenerate_strike_witness :
    (BlackScholesModel.european_call_price ⟨100, 0.05, 0.2, 1⟩ 0 =
       .error PyError.zeroDivisionError ∧
     BlackScholesModel.european_put_price ⟨100, 0.05, 0.2, 1⟩ 0 =
       .error PyError.zeroDivisionError) ∧
    (BlackScholesModel.european_call_price ⟨100, 0.05, 0.2, 1⟩ (-1) = .ok none ∧
     BlackScholesModel.european_put_price ⟨100, 0.05, 0.2, 1⟩ (-1) = .ok none) :=
  ⟨(pricers_degenerate_strike ⟨100, 0.05, 0.2, 1⟩ (by norm_num)).1,
   (pricers_degenerate_strike ⟨100, 0.05, 0.2, 1⟩ (by norm_num)).2 (-1) (by norm_num)⟩

/-- C2 counterexample: at the concrete strike `K = -1 < 0` both pricers return
a float (NaN) — they do not raise, contradicting the claim that every
`K ≤ 0` is rejected with an error. -/
theorem pricers_reject_counterexample :
    BlackScholesModel.european_call_price ⟨100, 0.05, 0.2, 1⟩ (-1) = .ok none ∧
    BlackScholesModel.european_put_price ⟨100, 0.05, 0.2, 1⟩ (-1) = .ok none := by
  constructor
  · unfold BlackScholesModel.european_call_price
    rw [if_neg (by norm_num), if_pos (by norm_num)]
  · unfold BlackScholesModel.european_put_price
    rw [if_neg (by norm_num), if_pos (by norm_num)]

/-- Closed form of the standard normal density. -/
theorem gaussianPDFReal_std_eq (x : ℝ) :
    gaussianPDFReal 0 1 x = (Real.sqrt (2*Real.pi))⁻¹ * Real.exp (-(x^2)/2) := by
  simp [gaussianPDFReal]

/-- Closed form of the normal density with mean `a` and unit variance. -/
theorem gaussianPDFReal_mean_eq (a x : ℝ) :
    gaussianPDFReal a 1 x = (Real.sqrt (2*Real.pi))⁻¹ * Real.exp (-((x - a)^2)/2) := by
  simp [gaussianPDFReal]

/-- The standard normal density is even. -/
theorem gaussianPDFReal_std_neg (t : ℝ) :
    gaussianPDFReal 0 1 (-t) = gaussianPDFReal 0 1 t := by
  rw [gaussianPDFReal_std_eq, gaussianPDFReal_std_eq, neg_pow]
  norm_num

/-- By the substitution `t ↦ -t`, the CDF at `-x` is the upper tail at `x`. -/
theorem normCdf_neg_eq (x : ℝ) :
    normCdf (-x) = ∫ t in Ioi x, gaussianPDFReal 0 1 t := by
  have h := integral_comp_neg_Iic (-x) (gaussianPDFReal 0 1)
  rw [neg_neg] at h
  rw [normCdf, ← h]
  exact setIntegral_congr_fun measurableSet_Iic fun t _ =>
    (gaussianPDFReal_std_neg t).symm

/-- Symmetry of the standard normal CDF: `Φ x + Φ (-x) = 1`. -/
theorem normCdf_add_neg (x : ℝ) : normCdf x + normCdf (-x) = 1 := by
  rw [normCdf_neg_eq, normCdf]
  rw [intervalIntegral.integral_Iic_add_Ioi (integrable_gaussianPDFReal 0 1).integrableOn
    (integrable_gaussianPDFReal 0 1).integrableOn]
  exact integral_gaussianPDFReal_eq_one 0 one_ne_zero

/-- Shifting the argument of the standard density by `a` gives the mean-`a`
density. -/
theorem gaussianPDFReal_shift (a u : ℝ) :
    gaussianPDFReal 0 1 (u - a) = gaussianPDFReal a 1 u := by
  simpa using gaussianPDFReal_sub (μ := 0) (v := 1) u a

/-- By the substitution `u ↦ u + a`, the CDF at `c - a` is the mass of the
mean-`a` normal on `(-∞, c]`. -/
theorem normCdf_eq_shifted (a c : ℝ) :
    normCdf (c - a) = ∫ u in Iic c, gaussianPDFReal a 1 u := by
  have hmp : MeasurePreserving (fun u : ℝ => u + a) volume volume :=
    measurePreserving_add_right volume a
  have hemb : MeasurableEmbedding (fun u : ℝ => u + a) :=
    (Homeomorph.addRight a).isClosedEmbedding.measurableEmbedding
  have h := hmp.setIntegral_preimage_emb hemb (gaussianPDFReal a 1) (Iic c)
  have hpre : Set.preimage (fun u : ℝ => u + a) (Iic c) = Iic (c - a) := by
    ext u
    simp [le_sub_iff_add_le]
  rw [← h, hpre, normCdf]
  refine setIntegral_congr_fun measurableSet_Iic fun u _ => ?_
  rw [← gaussianPDFReal_shift a (u + a), add_sub_cancel_right]

/-- Pointwise comparison on `(-∞, b + a/2]`: the mean-`a` density is dominated
by `exp (a*b)` times the standard density, since
`exp (-(u-a)²/2) = exp (a*u - a²/2) * exp (-u²/2)` and `a*u - a²/2 ≤ a*b`
there. -/
theorem gaussianPDFReal_shifted_le {a : ℝ} (ha : 0 ≤ a) {b u : ℝ}
    (hu : u ≤ b + a/2) :
    gaussianPDFReal a 1 u ≤ Real.exp (a*b) * gaussianPDFReal 0 1 u := by
  rw [gaussianPDFReal_mean_eq, gaussianPDFReal_std_eq]
  have key : Real.exp (-((u - a)^2)/2) ≤ Real.exp (a*b) * Real.exp (-(u^2)/2) := by
    rw [← Real.exp_add, Real.exp_le_exp]
    nlinarith [mul_nonneg ha (by linarith : (0:ℝ) ≤ b + a/2 - u)]
  have hc : (0:ℝ) ≤ (Real.sqrt (2*Real.pi))⁻¹ := by positivity
  nlinarith [mul_le_mul_of_nonneg_left key hc]

/-- The key inequality behind nonnegativity of both Black-Scholes prices:
`Φ(b - a/2) ≤ exp (a*b) · Φ(b + a/2)` for `a ≥ 0`. -/
theorem normCdf_shift_le {a : ℝ} (ha : 0 ≤ a) (b : ℝ) :
    normCdf (b - a/2) ≤ Real.exp (a*b) * normCdf (b + a/2) := by
  have h1 : normCdf (b - a/2) = ∫ u in Iic (b + a/2), gaussianPDFReal a 1 u := by
    have h2 := normCdf_eq_shifted a (b + a/2)
    rw [show b + a/2 - a = b - a/2 by ring] at h2
    exact h2
  rw [h1, normCdf, ← integral_mul_left]
  exact setIntegral_mono_on (integrable_gaussianPDFReal a 1).integrableOn
    (((integrable_gaussianPDFReal 0 1).const_mul _).integrableOn)
    measurableSet_Iic (fun u hu => gaussianPDFReal_shifted_le ha hu)

/-- C1: put-call parity.  For a valid model and positive strike both pricers
return their formula values, and exactly (in real arithmetic)
`call - put = S0 - K·exp(-r·T)`. -/
theorem put_call_parity (m : BlackScholesModel) (K : ℝ)
    (hS0 : 0 < m.S0) (hsig : 0 < m.sigma) (hT : 0 < m.T) (hK : 0 < K) :
    m.european_call_price K = .ok (some (m.callPriceReal K)) ∧
    m.european_put_price K = .ok (some (m.putPriceReal K)) ∧
    m.callPriceReal K - m.putPriceReal K = m.S0 - K * Real.exp (-m.r*m.T) := by
  refine ⟨(pricers_ok_of_pos_strike m hS0 hK).1,
    (pricers_ok_of_pos_strike m hS0 hK).2, ?_⟩
  have h1 := normCdf_add_neg (m.d1 K)
  have h2 := normCdf_add_neg (m.d2 K)
  unfold BlackScholesModel.callPriceReal BlackScholesModel.putPriceReal
  linear_combination m.S0 * h1 - K * Real.exp (-m.r*m.T) * h2

/-- C1 witness: parity at the concrete model of the test suite. -/
theorem put_call_parity_witness :
    BlackScholesModel.european_call_price ⟨100, 0.05, 0.2, 1⟩ 100 =
      .ok (some (BlackScholesModel.callPriceReal ⟨100, 0.05, 0.2, 1⟩ 100)) ∧
    BlackScholesModel.european_put_price ⟨100, 0.05, 0.2, 1⟩ 100 =
      .ok (some (BlackScholesModel.putPriceReal ⟨100, 0.05, 0.2, 1⟩ 100)) ∧
    BlackScholesModel.callPriceReal ⟨100, 0.05, 0.2, 1⟩ 100 -
      BlackScholesModel.putPriceReal ⟨100, 0.05, 0.2, 1⟩ 100 =
      100 - 100 * Real.exp (-(0.05:ℝ)*1) :=
  put_call_parity ⟨100, 0.05, 0.2, 1⟩ 100
    (by norm_num) (by norm_num) (by norm_num) (by norm_num)

/-- C5: for a valid model and positive strike both prices are nonnegative,
and both pricers return those values. -/
theorem bs_prices_nonneg (m : BlackScholesModel) (K : ℝ)
    (hS0 : 0 < m.S0) (hsig : 0 < m.sigma) (hT : 0 < m.T) (hK : 0 < K) :
    m.european_call_price K = .ok (some (m.callPriceReal K)) ∧
    m.european_put_price K = .ok (some (m.putPriceReal K)) ∧
    0 ≤ m.callPriceReal K ∧ 0 ≤ m.putPriceReal K := by
  refine ⟨(pricers_ok_of_pos_strike m hS0 hK).1,
    (pricers_ok_of_pos_strike m hS0 hK).2, ?_, ?_⟩
  all_goals {
    set a : ℝ := m.sigma * Real.sqrt m.T with ha_def
    have ha : 0 < a := mul_pos hsig (Real.sqrt_pos.mpr hT)
    set b : ℝ := m.d1 K - a/2 with hb_def
    have hd1 : m.d1 K = b + a/2 := by rw [hb_def]; ring
    have hd2 : m.d2 K = b - a/2 := by
      rw [BlackScholesModel.d2, hb_def, ← ha_def]; ring
    have hane : m.sigma * Real.sqrt m.T ≠ 0 :=
      ne_of_gt (mul_pos hsig (Real.sqrt_pos.mpr hT))
    have had1 : a * m.d1 K = Real.log (m.S0/K) + (m.r + 0.5*m.sigma^2)*m.T := by
      rw [ha_def, BlackScholesModel.d1]
      field_simp
    have haa : a * a = m.sigma^2 * m.T := by
      rw [ha_def]
      linear_combination m.sigma^2 * Real.mul_self_sqrt hT.le
    have hamu : a * b = Real.log (m.S0/K) + m.r*m.T := by
      rw [hb_def, show a * (m.d1 K - a/2) = a * m.d1 K - a*a/2 by ring, had1, haa]
      ring
    have hS0eq : K * Real.exp (-m.r*m.T) * Real.exp (a*b) = m.S0 := by
      rw [mul_assoc, ← Real.exp_add, hamu,
        show -m.r*m.T + (Real.log (m.S0/K) + m.r*m.T) = Real.log (m.S0/K) by ring,
        Real.exp_log (div_pos hS0 hK)]
      field_simp
    have hKe : 0 < K * Real.exp (-m.r*m.T) := mul_pos hK (Real.exp_pos _)
    first
    | · -- call price
        unfold BlackScholesModel.callPriceReal
        rw [hd1, hd2, ← hS0eq]
        have hL := normCdf_shift_le ha.le b
        linarith [mul_le_mul_of_nonneg_left hL hKe.le]
    | · -- put price
        unfold BlackScholesModel.putPriceReal
        rw [hd1, hd2, ← hS0eq,
          show -(b + a/2) = -b - a/2 by ring, show -(b - a/2) = -b + a/2 by ring]
        have hL2 := normCdf_shift_le ha.le (-b)
        have hfact := mul_le_mul_of_nonneg_left hL2
          (mul_pos hKe (Real.exp_pos (a*b))).le
        have h3 : K * Real.exp (-m.r*m.T) * Real.exp (a*b) *
            (Real.exp (a * -b) * normCdf (-b + a/2)) =
            K * Real.exp (-m.r*m.T) * normCdf (-b + a/2) := by
          have hEE : Real.exp (a*b) * Real.exp (a * -b) = 1 := by
            rw [← Real.exp_add, show a*b + a * -b = 0 by ring]
            exact Real.exp_zero
          linear_combination (K * Real.exp (-m.r*m.T) * normCdf (-b + a/2)) * hEE
        linarith [hfact, h3]
  }

/-- C5 witness: nonnegativity at the concrete model of the test suite. -/
theorem bs_prices_nonneg_witness :
    BlackScholesModel.european_call_price ⟨100, 0.05, 0.2, 1⟩ 100 =
      .ok (some (BlackScholesModel.callPriceReal ⟨100, 0.05, 0.2, 1⟩ 100)) ∧
    BlackScholesModel.european_put_price ⟨100, 0.05, 0.2, 1⟩ 100 =
      .ok (some (BlackScholesModel.putPriceReal ⟨100, 0.05, 0.2, 1⟩ 100)) ∧
    0 ≤ BlackScholesModel.callPriceReal ⟨100, 0.05, 0.2, 1⟩ 100 ∧
    0 ≤ BlackScholesModel.putPriceReal ⟨100, 0.05, 0.2, 1⟩ 100 :=
  bs_prices_nonneg ⟨100, 0.05, 0.2, 1⟩ 100
    (by norm_num) (by norm_num) (by norm_num) (by norm_num)
